import Mathlib

/-!
# Sorting service (`main.go`): sequential and concurrent batch sorting

A shallow embedding of the two request handlers of `main.go`
(`ProcessSingleHandler`, `ProcessConcurrentHandler`) and of the two sorters
they call (`SequentialSort`, `ConcurrentSort`).

* Go slices are modelled as `Slice α`: `none` is the nil slice, `some xs`
  a non-nil slice holding `xs`.  The difference matters for the response
  encoding (`encoding/json` writes a nil slice as `null`).
* Go `int` values are modelled as `Int`; the sorters only compare them.
* The concurrent pipeline (goroutines, `sync.WaitGroup`, unbuffered channel)
  is a labelled transition system on `Pipeline`; a schedule is a list of
  labels.
-/

namespace MapUp

/-! ## Go slices -/

/-- A Go slice value: `none` is the nil slice, `some xs` a non-nil slice. -/
abbrev Slice (α : Type) := Option (List α)

/-- The elements of a slice, in order (the nil slice has none). -/
def Slice.elems {α : Type} (s : Slice α) : List α := s.getD []

/-- Go `len(s)`. -/
def Slice.len {α : Type} (s : Slice α) : Nat := s.elems.length

/-- Go `append(s, x)`: the result is never nil. -/
def Slice.append {α : Type} (s : Slice α) (x : α) : Slice α := some (s.elems ++ [x])

/-- An array of the batch: a Go `[]int`. -/
abbrev Arr := Slice Int

/-! ## Data model (`main.go` lines 13-22) -/

/-- Go `type Input struct { ToSort [][]int }`. -/
structure Input where
  ToSort : Slice Arr
  deriving DecidableEq, Repr

/-- Go `type Output struct { SortedArrays [][]int; TimeNS int64 }`. -/
structure Output where
  SortedArrays : Slice Arr
  TimeNS : Int
  deriving DecidableEq, Repr

/-! ## The sorters (`main.go` lines 24-35) -/

/-- The standard library `sort.Ints`: sorts the slice ascending, in place.  Ascending
order on integers is total, so the resulting contents do not depend on the
algorithm the library uses; insertion sort stands for it.  A nil slice stays nil. -/
def sortInts (input : Arr) : Arr := input.map (List.insertionSort (· ≤ ·))

/-- The function `SequentialSort` (lines 25-28): `sort.Ints(input); return input`. -/
def SequentialSort (input : Arr) : Arr := sortInts input

/-- The loop of `ProcessSingleHandler` (lines 46-50):
`var sortedArrays [][]int; for _, arr := range input.ToSort { sortedArrays =
append(sortedArrays, SequentialSort(arr)) }`.  The arrays of a decoded batch do
not share storage, so sorting one in place leaves the others as they are. -/
def sequentialLoop (toSort : Slice Arr) : Slice Arr :=
  toSort.elems.foldl (fun sortedArrays arr => sortedArrays.append (SequentialSort arr)) none

/-! ## The concurrent pipeline (`main.go` lines 30-35 and 72-88)

The goroutines of one request are the handler itself (`MainPc`), one unit per
array running `ConcurrentSort` (`SortUnit`), and the anonymous closer
`go func() { wg.Wait(); close(ch) }()` (`CloserPc`).  They share the
`sync.WaitGroup` counter and the unbuffered channel `ch`. -/

/-- Where a unit running `ConcurrentSort` stands. -/
inductive UnitPc
  /-- Line 33, before `sort.Ints(input)`. -/
  | sort
  /-- Line 34, at `ch <- input` (blocks until the handler receives). -/
  | send
  /-- After the send, before the deferred `wg.Done()` of line 32. -/
  | done
  /-- Returned. -/
  | exited
  deriving DecidableEq, Repr

/-- One goroutine `go ConcurrentSort(arr, &wg, ch)`: the current contents of its
array, its position, and a history variable listing the arrays it has sent on the
channel so far. -/
structure SortUnit where
  input : Arr
  pc : UnitPc
  sent : List Arr
  deriving DecidableEq, Repr

/-- The call `ConcurrentSort(input, wg, ch)` as a goroutine about to start (line 31):
it will run `sort.Ints(input)`, then `ch <- input`, then the deferred `wg.Done()`. -/
def ConcurrentSort (input : Arr) : SortUnit := ⟨input, .sort, []⟩

/-- Where the closer goroutine of lines 81-84 stands. -/
inductive CloserPc
  /-- The handler has not reached line 81 yet. -/
  | unborn
  /-- At `wg.Wait()` (line 82): blocks until the counter is zero. -/
  | wait
  /-- At `close(ch)` (line 83). -/
  | close
  /-- Returned. -/
  | exited
  deriving DecidableEq, Repr

/-- Where the handler goroutine stands in lines 76-88. -/
inductive MainPc
  /-- Line 76: ranging over `input.ToSort`, these arrays still to come. -/
  | loop (rest : List Arr)
  /-- Line 78: `wg.Add(1)` done for `arr`, before `go ConcurrentSort(arr, &wg, ch)`. -/
  | launch (arr : Arr) (rest : List Arr)
  /-- Line 86: `for sortedArr := range ch`. -/
  | drain
  /-- Line 90: the drain loop has ended. -/
  | done
  deriving DecidableEq, Repr

/-- The shared state of one run of lines 72-88. -/
structure Pipeline where
  main : MainPc
  units : List SortUnit
  /-- The counter of `wg`. -/
  wg : Nat
  closer : CloserPc
  /-- Whether `ch` has been closed. -/
  closed : Bool
  /-- The handler's local `sortedArrays`. -/
  sortedArrays : Slice Arr
  /-- A goroutine has panicked (send on a closed channel, close of a closed
  channel, negative WaitGroup counter). -/
  panicked : Bool
  deriving DecidableEq, Repr

/-- Which goroutine moves.  `recv i` is the rendezvous on the unbuffered channel
between the send of unit `i` and the receive of the drain loop. -/
inductive Label
  | main
  | unit (i : Nat)
  | recv (i : Nat)
  | closer
  deriving DecidableEq, Repr

/-- Lines 72-74: `sortedArrays` is nil, the counter zero, the channel open, and the
handler enters the loop of line 76 over `input.ToSort`. -/
def initPipeline (toSort : Slice Arr) : Pipeline :=
  { main := .loop toSort.elems, units := [], wg := 0, closer := .unborn,
    closed := false, sortedArrays := none, panicked := false }

/-- One step of the handler goroutine. -/
def stepMain (s : Pipeline) : Option Pipeline :=
  match s.main with
  | .loop (arr :: rest) => some { s with wg := s.wg + 1, main := .launch arr rest }
  | .launch arr rest => some { s with units := s.units ++ [ConcurrentSort arr], main := .loop rest }
  | .loop [] => some { s with closer := .wait, main := .drain }
  | .drain => if s.closed then some { s with main := .done } else none
  | .done => none

/-- One step of unit `i` on its own: the sort of line 33, or the deferred
`wg.Done()`.  A unit at its send cannot move alone, unless the channel is closed,
where the send panics. -/
def stepUnit (i : Nat) (s : Pipeline) : Option Pipeline :=
  match s.units[i]? with
  | none => none
  | some u =>
    match u.pc with
    | .sort => some { s with units := s.units.set i { u with input := sortInts u.input, pc := .send } }
    | .send => if s.closed then some { s with panicked := true } else none
    | .done =>
      if s.wg = 0 then some { s with panicked := true }
      else some { s with wg := s.wg - 1, units := s.units.set i { u with pc := .exited } }
    | .exited => none

/-- The rendezvous of line 34 (`ch <- input`) with line 86 (`range ch`): the drain
loop receives the array of unit `i` and appends it (line 87). -/
def stepRecv (i : Nat) (s : Pipeline) : Option Pipeline :=
  match s.main, s.closed, s.units[i]? with
  | .drain, false, some u =>
    match u.pc with
    | .send =>
      some { s with sortedArrays := s.sortedArrays.append u.input,
                    units := s.units.set i { u with pc := .done, sent := u.sent ++ [u.input] } }
    | _ => none
  | _, _, _ => none

/-- One step of the closer goroutine (lines 82-83). -/
def stepCloser (s : Pipeline) : Option Pipeline :=
  match s.closer with
  | .unborn => none
  | .wait => if s.wg = 0 then some { s with closer := .close } else none
  | .close =>
    if s.closed then some { s with panicked := true }
    else some { s with closed := true, closer := .exited }
  | .exited => none

/-- One step of the pipeline: `none` when the chosen goroutine is blocked or has
returned.  After a panic nothing runs. -/
def step (l : Label) (s : Pipeline) : Option Pipeline :=
  if s.panicked then none
  else match l with
    | .main => stepMain s
    | .unit i => stepUnit i s
    | .recv i => stepRecv i s
    | .closer => stepCloser s

/-- Runs a schedule from a state: `none` when some step of it is not enabled. -/
def run : List Label → Pipeline → Option Pipeline
  | [], s => some s
  | l :: ls, s => (step l s).bind (run ls)

/-- The states an execution can reach from `s`. -/
def Reachable (s t : Pipeline) : Prop := ∃ sched, run sched s = some t

/-- The indices of the units in the order their sends are received. -/
def recvOrder : List Label → List Nat
  | [] => []
  | .recv i :: ls => i :: recvOrder ls
  | _ :: ls => recvOrder ls

/-- A schedule that completes the pipeline for a batch of `n` arrays when `order`
lists the indices below `n` once each: the handler starts all units and the closer,
then unit after unit, in the order `order`, sorts, is received and returns, then the
closer closes the channel and the drain loop ends. -/
def scheduleFor (n : Nat) (order : List Nat) : List Label :=
  (List.replicate (2 * n + 1) Label.main)
    ++ (order.flatMap fun i => [Label.unit i, Label.recv i, Label.unit i])
    ++ [Label.closer, Label.closer, Label.main]

/-! ## The request boundary (`main.go` lines 39-43, 54-60 and 65-69, 92-98)

`json.NewDecoder(r.Body).Decode(&input)` and `json.NewEncoder(w).Encode(output)`
belong to the standard library `encoding/json`.  The request body is modelled after
tokenising (`Body`), and the decoder by the documented rules of `encoding/json`
for a target of type `Input`. -/

/-- A JSON value as `encoding/json` reads or writes it. -/
inductive JSON
  | null
  | bool (b : Bool)
  /-- A number literal that is an optional minus sign followed by digits. -/
  | int (n : Int)
  /-- A number literal with a fraction or an exponent, such as `1.5` or `1e3`. -/
  | frac
  | str (s : String)
  | arr (items : List JSON)
  | obj (members : List (String × JSON))

/-- The request body: not a JSON text (or empty), or a JSON value. -/
inductive Body
  | malformed
  | value (v : JSON)

/-- The smallest Go `int` (64-bit platform). -/
def minInt : Int := -9223372036854775808

/-- The largest Go `int` (64-bit platform). -/
def maxInt : Int := 9223372036854775807

/-- Decoding into an element of type `int`: `none` is an `UnmarshalTypeError`.  A JSON
null leaves the element at its zero value; a number must be an integer literal in
range; every other value is a type error. -/
def decodeInt : JSON → Option Int
  | .null => some 0
  | .int n => if minInt ≤ n ∧ n ≤ maxInt then some n else none
  | _ => none

/-- Decoding the items of a JSON array one after the other with `f`: a type error in
one of them is a type error of the whole. -/
def decodeItems {β : Type} (f : JSON → Option β) : List JSON → Option (List β)
  | [] => some []
  | item :: items =>
    match f item, decodeItems f items with
    | some x, some xs => some (x :: xs)
    | _, _ => none

/-- Decoding into a fresh `[]int`: null gives the nil slice, an array a non-nil slice
of its decoded elements, every other value a type error. -/
def decodeArr : JSON → Option Arr
  | .null => some none
  | .arr items => (decodeItems decodeInt items).map some
  | _ => none

/-- Decoding into a `[][]int` that is nil or empty: null gives the nil slice, an
array a non-nil slice of its decoded elements, every other value a type error. -/
def decodeBatch : JSON → Option (Slice Arr)
  | .null => some none
  | .arr items => (decodeItems decodeArr items).map some
  | _ => none

/-- The case folding under which `encoding/json` compares a member name with a field
name: among the characters that fold onto the letters of `to_sort` are the ASCII
letters of either case, the long s (U+017F) and the Kelvin sign (U+212A). -/
def foldRune (c : Char) : Char :=
  if c = Char.ofNat 0x17F then 'S'
  else if c = Char.ofNat 0x212A then 'K'
  else c.toUpper

/-- Whether a member name selects the field `ToSort` (tag `to_sort`): the match is
not case-sensitive. -/
def matchesField (name : String) : Bool :=
  name.toList.map foldRune == "to_sort".toList.map foldRune

/-- Why `Decode` failed. -/
inductive DecodeError
  /-- The body is not a JSON text. -/
  | badSyntax
  /-- A value does not fit the Go type it is decoded into. -/
  | typeError
  deriving DecidableEq, Repr

/-- What decoding the members of the top-level object, in order, leaves in
`input.ToSort`.  Members whose name selects no field are skipped.  A value of the
wrong type sets `failed`: the decoder records the first type error, goes on and
returns it at the end.  A null for `to_sort` sets the field to nil.  An array for
`to_sort` is decoded into a fresh slice when the field is nil or empty; when the
field already holds arrays the library reuses their storage, which this model does
not describe: `cur` becomes `none`, and so does the result unless decoding failed. -/
def decodeMembers :
    List (String × JSON) → Option (Slice Arr) → Bool → Option (Except DecodeError Input)
  | [], cur, failed =>
    if failed then some (.error .typeError) else cur.map fun toSort => .ok ⟨toSort⟩
  | (name, v) :: rest, cur, failed =>
    if matchesField name then
      match v, decodeBatch v with
      | _, none => decodeMembers rest cur true
      | .null, some _ => decodeMembers rest (some none) failed
      | _, some new =>
        decodeMembers rest (if cur.map Slice.elems = some [] then some new else none) failed
    else decodeMembers rest cur failed

/-- The call `json.NewDecoder(r.Body).Decode(&input)` on `var input Input`: a body
that is not JSON is a syntax error; null leaves `input` at its zero value; an object
is decoded member by member; every other value is a type error. -/
def Decode : Body → Option (Except DecodeError Input)
  | .malformed => some (.error .badSyntax)
  | .value .null => some (.ok ⟨none⟩)
  | .value (.obj members) => decodeMembers members (some none) false
  | .value _ => some (.error .typeError)

/-- What `json.NewEncoder(w).Encode` writes for a `[]int`: null for the nil slice. -/
def encodeArr : Arr → JSON
  | none => .null
  | some xs => .arr (xs.map JSON.int)

/-- What `json.NewEncoder(w).Encode` writes for a `[][]int`: null for the nil slice. -/
def encodeBatch : Slice Arr → JSON
  | none => .null
  | some arrs => .arr (arrs.map encodeArr)

/-- What `json.NewEncoder(w).Encode(output)` writes (line 60 and line 98). -/
def encodeOutput (output : Output) : JSON :=
  .obj [("sorted_arrays", encodeBatch output.SortedArrays), ("time_ns", .int output.TimeNS)]

/-- The response of a handler. -/
inductive Response
  /-- `http.Error(w, "Invalid JSON", http.StatusBadRequest)`. -/
  | badRequest (message : String)
  /-- Status 200 with `output` encoded as the body. -/
  | ok (output : Output)
  deriving DecidableEq, Repr

/-- The HTTP status of a response. -/
def Response.status : Response → Nat
  | .badRequest _ => 400
  | .ok _ => 200

/-- The JSON body of a response, when it has one. -/
def Response.json : Response → Option JSON
  | .badRequest _ => none
  | .ok output => some (encodeOutput output)

/-- What one call of a handler did: its response and how many times it invoked its
sorter (`SequentialSort` at line 49, `go ConcurrentSort` at line 78). -/
structure Outcome where
  response : Response
  sorterCalls : Nat
  deriving DecidableEq, Repr

/-- The handler `ProcessSingleHandler` (lines 38-61).  `timeNS` is the reading
`time.Since(startTime).Nanoseconds()`.  `none` only where `Decode` is. -/
def ProcessSingleHandler (body : Body) (timeNS : Int) : Option Outcome :=
  match Decode body with
  | none => none
  | some (.error _) => some ⟨.badRequest "Invalid JSON", 0⟩
  | some (.ok input) =>
    some ⟨.ok { SortedArrays := sequentialLoop input.ToSort, TimeNS := timeNS }, input.ToSort.len⟩

/-- The handler `ProcessConcurrentHandler` (lines 64-99) under the schedule `sched` of its
goroutines.  `none` where `Decode` is, and when `sched` is not a complete execution
of the pipeline (some step of it is not enabled, or the drain loop has not ended). -/
def ProcessConcurrentHandler (body : Body) (sched : List Label) (timeNS : Int) : Option Outcome :=
  match Decode body with
  | none => none
  | some (.error _) => some ⟨.badRequest "Invalid JSON", 0⟩
  | some (.ok input) =>
    match run sched (initPipeline input.ToSort) with
    | none => none
    | some s =>
      if s.main = .done then
        some ⟨.ok { SortedArrays := s.sortedArrays, TimeNS := timeNS }, s.units.length⟩
      else none

/-! ## Quantities read off a pipeline state -/

/-- The unit has completed its send (it is at or past the deferred `wg.Done()`). -/
def UnitPc.sent : UnitPc → Bool
  | .done | .exited => true
  | _ => false

/-- The unit has not yet called `wg.Done()`. -/
def UnitPc.live : UnitPc → Bool
  | .exited => false
  | _ => true

/-- The array the unit sends: its array once sorted. -/
def SortUnit.result (u : SortUnit) : Arr :=
  match u.pc with
  | .sort => sortInts u.input
  | _ => u.input

/-- The arrays for which no unit has been started yet. -/
def MainPc.pending : MainPc → List Arr
  | .loop rest => rest
  | .launch arr rest => arr :: rest
  | _ => []

/-- The `wg.Add(1)` calls made for a unit that is not started yet. -/
def MainPc.added : MainPc → Nat
  | .launch _ _ => 1
  | _ => 0

/-- The handler is still in the loop of line 76. -/
def MainPc.spawning : MainPc → Bool
  | .loop _ | .launch _ _ => true
  | _ => false

/-- Steps left to the handler and to the units it has yet to start. -/
def MainPc.fuel : MainPc → Nat
  | .loop rest => 5 * rest.length + 2
  | .launch _ rest => 5 * rest.length + 6
  | .drain => 1
  | .done => 0

/-- Steps left to a unit. -/
def UnitPc.fuel : UnitPc → Nat
  | .sort => 3
  | .send => 2
  | .done => 1
  | .exited => 0

/-- Steps left to the closer. -/
def CloserPc.fuel : CloserPc → Nat
  | .unborn => 3
  | .wait => 2
  | .close => 1
  | .exited => 0

/-- An upper bound on the number of steps the pipeline can still take. -/
def Pipeline.fuel (s : Pipeline) : Nat :=
  s.main.fuel + (s.units.map fun u => u.pc.fuel).sum + s.closer.fuel

/-- For each unit started so far, whether its send has been received. -/
def Pipeline.sentFlags (s : Pipeline) : List Bool := s.units.map fun u => u.pc.sent

/-- The unit started on the array `a` publishes `v`: in every complete execution of the
pipeline, on every batch and at every position where `a` stands, the sends of that
unit on the channel are exactly `[v]`. -/
def Publishes (a v : Arr) : Prop :=
  ∀ (B : Slice Arr) (sched : List Label) (s : Pipeline) (i : Nat),
    run sched (initPipeline B) = some s → s.main = .done → B.elems[i]? = some a →
      ∃ u, s.units[i]? = some u ∧ u.sent = [v]

/-- The invariant of the pipeline run for the batch `B`. -/
structure Inv (B : List Arr) (s : Pipeline) : Prop where
  noPanic : s.panicked = false
  wgCount : s.wg = s.units.countP (fun u => u.pc.live) + s.main.added
  closerBorn : s.closer = .unborn ↔ s.main.spawning = true
  pastWait : s.closer = .close ∨ s.closer = .exited → s.wg = 0
  closedIff : s.closed = true ↔ s.closer = .exited
  doneClosed : s.main = .done → s.closed = true
  batch : s.units.map SortUnit.result ++ s.main.pending.map sortInts = B.map sortInts
  sendsOk : ∀ u ∈ s.units, u.sent = if u.pc.sent then [u.input] else []
  received : s.sortedArrays.elems.Perm ((s.units.filter fun u => u.pc.sent).map fun u => u.input)
  nilUntilAppend : s.sortedArrays = none ∨ s.sortedArrays.elems ≠ []

/-! ## Basic facts -/

theorem Slice.elems_append {α : Type} (s : Slice α) (x : α) :
    (s.append x).elems = s.elems ++ [x] := rfl

theorem foldl_append_elems {α β : Type} (f : α → β) (xs : List α) (acc : Slice β) :
    (xs.foldl (fun out a => out.append (f a)) acc).elems = acc.elems ++ xs.map f := by
  induction xs generalizing acc with
  | nil => simp
  | cons a xs ih => simp [ih, Slice.elems_append]

theorem sequentialLoop_elems (toSort : Slice Arr) :
    (sequentialLoop toSort).elems = toSort.elems.map SequentialSort := by
  unfold sequentialLoop
  rw [foldl_append_elems SequentialSort]
  rfl

theorem sortInts_sorted (a : Arr) : (sortInts a).elems.Sorted (· ≤ ·) := by
  cases a with
  | none => simp [sortInts, Slice.elems]
  | some xs => exact List.sorted_insertionSort (· ≤ ·) xs

theorem sortInts_perm (a : Arr) : (sortInts a).elems.Perm a.elems := by
  cases a with
  | none => simp [sortInts, Slice.elems]
  | some xs => exact List.perm_insertionSort (· ≤ ·) xs

theorem sortInts_of_sorted (a : Arr) (h : a.elems.Sorted (· ≤ ·)) : sortInts a = a := by
  cases a with
  | none => rfl
  | some xs =>
    have h2 : List.insertionSort (· ≤ ·) xs = xs := List.Sorted.insertionSort_eq h
    simp [sortInts, h2]

theorem sortInts_idem (a : Arr) : sortInts (sortInts a) = sortInts a :=
  sortInts_of_sorted _ (sortInts_sorted a)

/-! ## The invariant holds in every reachable state -/

theorem getElem?_split {α : Type} (l : List α) (i : Nat) (u : α) (h : l[i]? = some u) :
    ∃ pre post, l = pre ++ u :: post ∧ pre.length = i ∧
      ∀ x, l.set i x = pre ++ x :: post := by
  induction l generalizing i with
  | nil => simp at h
  | cons a l ih =>
    cases i with
    | zero =>
      simp at h
      subst h
      exact ⟨[], l, rfl, rfl, fun x => rfl⟩
    | succ i =>
      simp at h
      obtain ⟨pre, post, hl, hlen, hset⟩ := ih i h
      refine ⟨a :: pre, post, by simp [hl], by simp [hlen], fun x => ?_⟩
      simp [List.set, hset x]

@[simp] theorem UnitPc.sent_sort : UnitPc.sort.sent = false := rfl
@[simp] theorem UnitPc.sent_send : UnitPc.send.sent = false := rfl
@[simp] theorem UnitPc.sent_done : UnitPc.done.sent = true := rfl
@[simp] theorem UnitPc.sent_exited : UnitPc.exited.sent = true := rfl
@[simp] theorem UnitPc.live_sort : UnitPc.sort.live = true := rfl
@[simp] theorem UnitPc.live_send : UnitPc.send.live = true := rfl
@[simp] theorem UnitPc.live_done : UnitPc.done.live = true := rfl
@[simp] theorem UnitPc.live_exited : UnitPc.exited.live = false := rfl
@[simp] theorem UnitPc.unitFuel_sort : UnitPc.sort.fuel = 3 := rfl
@[simp] theorem UnitPc.unitFuel_send : UnitPc.send.fuel = 2 := rfl
@[simp] theorem UnitPc.unitFuel_done : UnitPc.done.fuel = 1 := rfl
@[simp] theorem UnitPc.unitFuel_exited : UnitPc.exited.fuel = 0 := rfl
@[simp] theorem MainPc.pending_loop (r : List Arr) : (MainPc.loop r).pending = r := rfl
@[simp] theorem MainPc.pending_launch (a : Arr) (r : List Arr) :
    (MainPc.launch a r).pending = a :: r := rfl
@[simp] theorem MainPc.pending_drain : MainPc.drain.pending = [] := rfl
@[simp] theorem MainPc.pending_done : MainPc.done.pending = [] := rfl
@[simp] theorem MainPc.added_loop (r : List Arr) : (MainPc.loop r).added = 0 := rfl
@[simp] theorem MainPc.added_launch (a : Arr) (r : List Arr) : (MainPc.launch a r).added = 1 := rfl
@[simp] theorem MainPc.added_drain : MainPc.drain.added = 0 := rfl
@[simp] theorem MainPc.added_done : MainPc.done.added = 0 := rfl
@[simp] theorem MainPc.spawning_loop (r : List Arr) : (MainPc.loop r).spawning = true := rfl
@[simp] theorem MainPc.spawning_launch (a : Arr) (r : List Arr) :
    (MainPc.launch a r).spawning = true := rfl
@[simp] theorem MainPc.spawning_drain : MainPc.drain.spawning = false := rfl
@[simp] theorem MainPc.spawning_done : MainPc.done.spawning = false := rfl
@[simp] theorem MainPc.mainFuel_loop (r : List Arr) : (MainPc.loop r).fuel = 5 * r.length + 2 := rfl
@[simp] theorem MainPc.mainFuel_launch (a : Arr) (r : List Arr) :
    (MainPc.launch a r).fuel = 5 * r.length + 6 := rfl
@[simp] theorem MainPc.mainFuel_drain : MainPc.drain.fuel = 1 := rfl
@[simp] theorem MainPc.mainFuel_done : MainPc.done.fuel = 0 := rfl
@[simp] theorem CloserPc.closerFuel_unborn : CloserPc.unborn.fuel = 3 := rfl
@[simp] theorem CloserPc.closerFuel_wait : CloserPc.wait.fuel = 2 := rfl
@[simp] theorem CloserPc.closerFuel_close : CloserPc.close.fuel = 1 := rfl
@[simp] theorem CloserPc.closerFuel_exited : CloserPc.exited.fuel = 0 := rfl

theorem SortUnit.result_sort (a : Arr) (n : List Arr) :
    SortUnit.result ⟨a, .sort, n⟩ = sortInts a := rfl

theorem SortUnit.result_of_ne (u : SortUnit) (h : u.pc ≠ .sort) : u.result = u.input := by
  unfold SortUnit.result
  split
  · contradiction
  · rfl

theorem inv_init (toSort : Slice Arr) : Inv toSort.elems (initPipeline toSort) := by
  constructor <;> simp [initPipeline, Slice.elems]

theorem inv_stepMain {B : List Arr} {s t : Pipeline} (hi : Inv B s) (h : stepMain s = some t) :
    Inv B t := by
  obtain ⟨h1, h2, h3, h4, h5, h6, h7, h8, h9, h10⟩ := hi
  unfold stepMain at h
  split at h
  · next arr rest hm =>
    simp at h; subst h
    simp only [hm] at *
    constructor <;> simp_all
  · next arr rest hm =>
    simp at h; subst h
    simp only [hm] at *
    constructor <;>
      simp_all [ConcurrentSort, List.countP_append, SortUnit.result_sort]
    rintro u (hu | rfl)
    · exact h8 u hu
    · rfl
  · next hm =>
    simp at h; subst h
    simp only [hm] at *
    constructor <;> simp_all
  · next hm =>
    split at h
    · simp at h; subst h
      simp only [hm] at *
      constructor <;> simp_all
    · simp at h
  · simp at h

theorem inv_stepCloser {B : List Arr} {s t : Pipeline} (hi : Inv B s)
    (h : stepCloser s = some t) : Inv B t := by
  obtain ⟨h1, h2, h3, h4, h5, h6, h7, h8, h9, h10⟩ := hi
  unfold stepCloser at h
  split at h
  · simp at h
  · next hc =>
    split at h
    · next hw =>
      simp at h; subst h
      constructor <;> simp_all
    · simp at h
  · next hc =>
    split at h
    · next hcl => simp [hc] at h5; simp [h5] at hcl
    · simp at h; subst h
      constructor <;> simp_all
  · simp at h

theorem inv_stepUnit {B : List Arr} {s t : Pipeline} (i : Nat) (hi : Inv B s)
    (h : stepUnit i s = some t) : Inv B t := by
  obtain ⟨h1, h2, h3, h4, h5, h6, h7, h8, h9, h10⟩ := hi
  unfold stepUnit at h
  split at h
  · simp at h
  · next u hu =>
    obtain ⟨pre, post, hl, -, hset⟩ := getElem?_split _ _ _ hu
    obtain ⟨a, pc, n⟩ := u
    simp only [hset] at h
    simp only [hl] at *
    cases pc with
    | sort =>
      simp at h; subst h
      have hs : ∀ u ∈ pre ++ (⟨sortInts a, .send, n⟩ : SortUnit) :: post,
          u.sent = if u.pc.sent then [u.input] else [] := by
        intro u hu
        rcases List.mem_append.mp hu with hu | hu
        · exact h8 u (by simp [hu])
        · rcases List.mem_cons.mp hu with rfl | hu
          · exact h8 ⟨a, .sort, n⟩ (by simp)
          · exact h8 u (by simp [hu])
      constructor
      · exact h1
      · simpa [List.countP_append, List.countP_cons] using h2
      · exact h3
      · exact h4
      · exact h5
      · exact h6
      · simpa [SortUnit.result] using h7
      · exact hs
      · simpa [List.filter_cons] using h9
      · exact h10
    | send =>
      simp at h
      obtain ⟨hc, -⟩ := h
      have hw := h4 (Or.inr (h5.mp hc))
      simp [hw, List.countP_append, List.countP_cons] at h2
      omega
    | done =>
      simp at h
      split at h
      · next hw =>
        simp [hw, List.countP_append, List.countP_cons] at h2
        omega
      · next hw =>
        simp at h; subst h
        have hs : ∀ u ∈ pre ++ (⟨a, .exited, n⟩ : SortUnit) :: post,
            u.sent = if u.pc.sent then [u.input] else [] := by
          intro u hu
          rcases List.mem_append.mp hu with hu | hu
          · exact h8 u (by simp [hu])
          · rcases List.mem_cons.mp hu with rfl | hu
            · exact h8 ⟨a, .done, n⟩ (by simp)
            · exact h8 u (by simp [hu])
        constructor
        · exact h1
        · simp [List.countP_append, List.countP_cons] at h2 ⊢
          omega
        · exact h3
        · intro hcl
          have := h4 hcl
          simp at this ⊢
          omega
        · exact h5
        · exact h6
        · simpa [SortUnit.result] using h7
        · exact hs
        · simpa [List.filter_cons] using h9
        · exact h10
    | exited => simp at h

theorem inv_stepRecv {B : List Arr} {s t : Pipeline} (i : Nat) (hi : Inv B s)
    (h : stepRecv i s = some t) : Inv B t := by
  obtain ⟨h1, h2, h3, h4, h5, h6, h7, h8, h9, h10⟩ := hi
  unfold stepRecv at h
  split at h
  · next u hm hc hu =>
    obtain ⟨pre, post, hl, -, hset⟩ := getElem?_split _ _ _ hu
    obtain ⟨a, pc, n⟩ := u
    simp only [hset] at h
    simp only [hl] at *
    cases pc with
    | send =>
      simp at h; subst h
      have hn : n = [] := h8 ⟨a, .send, n⟩ (by simp)
      have hs : ∀ u ∈ pre ++ (⟨a, .done, n ++ [a]⟩ : SortUnit) :: post,
          u.sent = if u.pc.sent then [u.input] else [] := by
        intro u hu
        rcases List.mem_append.mp hu with hu | hu
        · exact h8 u (by simp [hu])
        · rcases List.mem_cons.mp hu with rfl | hu
          · simp [hn]
          · exact h8 u (by simp [hu])
      constructor
      · exact h1
      · simpa [List.countP_append, List.countP_cons] using h2
      · exact h3
      · exact h4
      · exact h5
      · exact h6
      · simpa [SortUnit.result] using h7
      · exact hs
      · simp only [Slice.elems_append]
        simp [List.filter_cons] at h9 ⊢
        exact (h9.append_right [a]).trans
          ((List.perm_append_singleton a _).trans List.perm_middle.symm)
      · exact Or.inr (by simp [Slice.elems_append])
    | _ => simp at h
  · simp at h

theorem inv_step {B : List Arr} {s t : Pipeline} (l : Label) (hi : Inv B s)
    (h : step l s = some t) : Inv B t := by
  unfold step at h
  split at h
  · simp at h
  · cases l with
    | main => exact inv_stepMain hi h
    | unit i => exact inv_stepUnit i hi h
    | recv i => exact inv_stepRecv i hi h
    | closer => exact inv_stepCloser hi h

theorem inv_run {B : List Arr} (sched : List Label) {s t : Pipeline} (hi : Inv B s)
    (h : run sched s = some t) : Inv B t := by
  induction sched generalizing s with
  | nil => simp [run] at h; subst h; exact hi
  | cons l ls ih =>
    simp only [run] at h
    cases hs : step l s with
    | none => simp [hs] at h
    | some s1 =>
      simp [hs] at h
      exact ih (inv_step l hi hs) h

theorem inv_reachable {toSort : Slice Arr} {t : Pipeline}
    (h : Reachable (initPipeline toSort) t) : Inv toSort.elems t := by
  obtain ⟨sched, hr⟩ := h
  exact inv_run sched (inv_init toSort) hr

/-! ## What holds once `wg.Wait()` has returned -/

theorem pastWait_units_exited {B : List Arr} {s : Pipeline} (hi : Inv B s)
    (hc : s.closer = .close ∨ s.closer = .exited) : ∀ u ∈ s.units, u.pc = .exited := by
  intro u hu
  have hw := hi.pastWait hc
  have h2 := hi.wgCount
  rw [hw] at h2
  have h0 : s.units.countP (fun u => u.pc.live) = 0 := by omega
  have hl := (List.countP_eq_zero.mp h0) u hu
  cases hp : u.pc <;> simp [hp] at hl ⊢

theorem pastWait_pending {B : List Arr} {s : Pipeline} (hi : Inv B s)
    (hc : s.closer = .close ∨ s.closer = .exited) : s.main.pending = [] := by
  have hb := hi.closerBorn
  cases hm : s.main <;> rcases hc with hc | hc <;> simp [hm, hc] at hb ⊢

theorem pastWait_results {B : List Arr} {s : Pipeline} (hi : Inv B s)
    (hc : s.closer = .close ∨ s.closer = .exited) :
    (s.units.map fun u => u.input) = B.map sortInts := by
  have hex := pastWait_units_exited hi hc
  have hb := hi.batch
  rw [pastWait_pending hi hc] at hb
  simp only [List.map_nil, List.append_nil] at hb
  rw [← hb]
  apply List.map_congr_left
  intro u hu
  exact (SortUnit.result_of_ne u (by simp [hex u hu])).symm

theorem pastWait_received {B : List Arr} {s : Pipeline} (hi : Inv B s)
    (hc : s.closer = .close ∨ s.closer = .exited) :
    s.sortedArrays.elems.Perm (B.map sortInts) := by
  have hex := pastWait_units_exited hi hc
  have hf : (s.units.filter fun u => u.pc.sent) = s.units := by
    apply List.filter_eq_self.mpr
    intro u hu
    simp [hex u hu]
  have h9 := hi.received
  rw [hf, pastWait_results hi hc] at h9
  exact h9

theorem pastWait_units_length {B : List Arr} {s : Pipeline} (hi : Inv B s)
    (hc : s.closer = .close ∨ s.closer = .exited) : s.units.length = B.length := by
  have hb := congrArg List.length (pastWait_results hi hc)
  simpa using hb

theorem closed_pastWait {B : List Arr} {s : Pipeline} (hi : Inv B s) (hc : s.closed = true) :
    s.closer = .close ∨ s.closer = .exited :=
  Or.inr (hi.closedIff.mp hc)

theorem closed_received {B : List Arr} {s : Pipeline} (hi : Inv B s) (hc : s.closed = true) :
    s.sortedArrays.elems.Perm (B.map sortInts) :=
  pastWait_received hi (closed_pastWait hi hc)

theorem done_received {B : List Arr} {s : Pipeline} (hi : Inv B s) (hd : s.main = .done) :
    s.sortedArrays.elems.Perm (B.map sortInts) :=
  closed_received hi (hi.doneClosed hd)

theorem done_unit_sent {B : List Arr} {s : Pipeline} (hi : Inv B s) (hd : s.main = .done)
    (i : Nat) (a : Arr) (ha : B[i]? = some a) :
    ∃ u, s.units[i]? = some u ∧ u.pc = .exited ∧ u.sent = [sortInts a] := by
  have hc := closed_pastWait hi (hi.doneClosed hd)
  have hr := congrArg (fun l => l[i]?) (pastWait_results hi hc)
  simp only [List.getElem?_map, ha, Option.map_some'] at hr
  cases hu : s.units[i]? with
  | none => simp [hu] at hr
  | some u =>
    simp [hu] at hr
    have hmem := List.getElem?_mem hu
    have hex := pastWait_units_exited hi hc u hmem
    have hs := hi.sendsOk u hmem
    simp [hex, hr] at hs
    exact ⟨u, rfl, hex, hs⟩

theorem done_terminal {B : List Arr} {s : Pipeline} (hi : Inv B s) (hd : s.main = .done)
    (l : Label) : step l s = none := by
  have hcl := hi.doneClosed hd
  have hce := hi.closedIff.mp hcl
  have hex := pastWait_units_exited hi (Or.inr hce)
  unfold step
  split
  · rfl
  · cases l with
    | main => simp [stepMain, hd]
    | unit i =>
      simp only [stepUnit]
      cases hu : s.units[i]? with
      | none => rfl
      | some u =>
        have hp := hex u (List.getElem?_mem hu)
        simp [hp]
    | recv i => simp [stepRecv, hd]
    | closer => simp [stepCloser, hce]

/-! ## The output lists the arrays in the order received -/

theorem unit_result {B : List Arr} {s : Pipeline} (hi : Inv B s) (i : Nat) (u : SortUnit)
    (hu : s.units[i]? = some u) : i < B.length ∧ u.result = sortInts (B.getD i none) := by
  have hlt : i < s.units.length := by
    by_contra hge
    have := List.getElem?_eq_none (Nat.le_of_not_lt hge)
    simp [this] at hu
  have hr := congrArg (fun l => l[i]?) hi.batch
  simp only [List.getElem?_append_left (by simpa using hlt : i < (s.units.map SortUnit.result).length),
    List.getElem?_map, hu, Option.map_some'] at hr
  cases hb : B[i]? with
  | none => simp [hb] at hr
  | some b =>
    simp [hb] at hr
    have hlb : i < B.length := by
      by_contra hge
      have := List.getElem?_eq_none (Nat.le_of_not_lt hge)
      simp [this] at hb
    refine ⟨hlb, ?_⟩
    rw [List.getD_eq_getElem?_getD, hb]
    simpa using hr

theorem sortedArrays_step {B : List Arr} {s t : Pipeline} (l : Label) (hi : Inv B s)
    (h : step l s = some t) :
    t.sortedArrays.elems
      = s.sortedArrays.elems ++ (recvOrder [l]).map fun i => sortInts (B.getD i none) := by
  unfold step at h
  split at h
  · simp at h
  · cases l with
    | main =>
      simp only at h
      unfold stepMain at h
      split at h
      · simp at h; subst h; simp [recvOrder]
      · simp at h; subst h; simp [recvOrder]
      · simp at h; subst h; simp [recvOrder]
      · split at h
        · simp at h; subst h; simp [recvOrder]
        · simp at h
      · simp at h
    | unit i =>
      simp only at h
      unfold stepUnit at h
      split at h
      · simp at h
      · split at h
        · simp at h; subst h; simp [recvOrder]
        · split at h
          · simp at h; subst h; simp [recvOrder]
          · simp at h
        · split at h
          · simp at h; subst h; simp [recvOrder]
          · simp at h; subst h; simp [recvOrder]
        · simp at h
    | recv i =>
      simp only at h
      unfold stepRecv at h
      split at h
      · next u hm hc hu =>
        split at h
        · next hp =>
          simp at h; subst h
          have hr := (unit_result hi i u hu).2
          rw [SortUnit.result_of_ne u (by simp [hp])] at hr
          simp [recvOrder, Slice.elems_append, hr]
        · simp at h
      · simp at h
    | closer =>
      simp only at h
      unfold stepCloser at h
      split at h
      · simp at h
      · split at h
        · simp at h; subst h; simp [recvOrder]
        · simp at h
      · split at h
        · simp at h; subst h; simp [recvOrder]
        · simp at h; subst h; simp [recvOrder]
      · simp at h

theorem recvOrder_cons (l : Label) (ls : List Label) :
    recvOrder (l :: ls) = recvOrder [l] ++ recvOrder ls := by
  cases l <;> simp [recvOrder]

theorem sortedArrays_run {B : List Arr} (sched : List Label) {s t : Pipeline} (hi : Inv B s)
    (h : run sched s = some t) :
    t.sortedArrays.elems
      = s.sortedArrays.elems ++ (recvOrder sched).map fun i => sortInts (B.getD i none) := by
  induction sched generalizing s with
  | nil => simp [run] at h; subst h; simp [recvOrder]
  | cons l ls ih =>
    simp only [run] at h
    cases hs : step l s with
    | none => simp [hs] at h
    | some s1 =>
      simp [hs] at h
      rw [ih (inv_step l hi hs) h, sortedArrays_step l hi hs, recvOrder_cons l ls]
      simp

/-! ## Termination and absence of deadlock -/

theorem fuel_step {B : List Arr} {s t : Pipeline} (l : Label) (hi : Inv B s)
    (h : step l s = some t) : t.fuel < s.fuel := by
  have hnp := (inv_step l hi h).noPanic
  unfold step at h
  split at h
  · simp at h
  · cases l with
    | main =>
      simp only at h
      unfold stepMain at h
      split at h
      · next arr rest hm =>
        simp at h; subst h
        simp [Pipeline.fuel, hm]
        omega
      · next arr rest hm =>
        simp at h; subst h
        simp [Pipeline.fuel, hm, ConcurrentSort]
        omega
      · next hm =>
        simp at h; subst h
        have hc : s.closer = .unborn := hi.closerBorn.mpr (by simp [hm])
        simp [Pipeline.fuel, hm, hc]
        omega
      · next hm =>
        split at h
        · simp at h; subst h
          simp [Pipeline.fuel, hm]
        · simp at h
      · simp at h
    | unit i =>
      simp only at h
      unfold stepUnit at h
      split at h
      · simp at h
      · next u hu =>
        obtain ⟨pre, post, hl, -, hset⟩ := getElem?_split _ _ _ hu
        obtain ⟨a, pc, n⟩ := u
        simp only [hset] at h
        cases pc with
        | sort =>
          simp at h; subst h
          simp [Pipeline.fuel, hl]
        | send =>
          simp at h
          obtain ⟨-, rfl⟩ := h
          simp at hnp
        | done =>
          simp at h
          split at h
          · simp at h; subst h
            simp at hnp
          · simp at h; subst h
            simp [Pipeline.fuel, hl]
        | exited => simp at h
    | recv i =>
      simp only at h
      unfold stepRecv at h
      split at h
      · next u hm hc hu =>
        obtain ⟨pre, post, hl, -, hset⟩ := getElem?_split _ _ _ hu
        obtain ⟨a, pc, n⟩ := u
        simp only [hset] at h
        cases pc with
        | send =>
          simp at h; subst h
          simp [Pipeline.fuel, hl]
        | _ => simp at h
      · simp at h
    | closer =>
      simp only at h
      unfold stepCloser at h
      split at h
      · simp at h
      · next hc =>
        split at h
        · simp at h; subst h
          simp [Pipeline.fuel, hc]
        · simp at h
      · next hc =>
        split at h
        · simp at h; subst h
          simp at hnp
        · simp at h; subst h
          simp [Pipeline.fuel, hc]
      · simp at h

theorem fuel_run {B : List Arr} (sched : List Label) {s t : Pipeline} (hi : Inv B s)
    (h : run sched s = some t) : sched.length + t.fuel ≤ s.fuel := by
  induction sched generalizing s with
  | nil => simp [run] at h; subst h; simp
  | cons l ls ih =>
    simp only [run] at h
    cases hs : step l s with
    | none => simp [hs] at h
    | some s1 =>
      simp [hs] at h
      have h1 := ih (inv_step l hi hs) h
      have h2 := fuel_step l hi hs
      simp only [List.length_cons]
      omega

theorem fuel_init (toSort : Slice Arr) : (initPipeline toSort).fuel = 5 * toSort.len + 5 := by
  simp [Pipeline.fuel, initPipeline, Slice.len]

theorem progress {B : List Arr} {s : Pipeline} (hi : Inv B s) (hm : s.main ≠ .done) :
    ∃ l t, step l s = some t := by
  have hnp := hi.noPanic
  cases hmain : s.main with
  | loop rest =>
    cases rest with
    | nil => exact ⟨.main, _, by simp [step, hnp, stepMain, hmain]; rfl⟩
    | cons a r => exact ⟨.main, _, by simp [step, hnp, stepMain, hmain]; rfl⟩
  | launch a r => exact ⟨.main, _, by simp [step, hnp, stepMain, hmain]; rfl⟩
  | done => exact absurd hmain hm
  | drain =>
    cases hc : s.closed with
    | true => exact ⟨.main, _, by simp [step, hnp, stepMain, hmain, hc]; rfl⟩
    | false =>
      by_cases hex : ∀ u ∈ s.units, u.pc = .exited
      · have h0 : s.units.countP (fun u => u.pc.live) = 0 := by
          apply List.countP_eq_zero.mpr
          intro u hu
          simp [hex u hu]
        have hw : s.wg = 0 := by
          have := hi.wgCount
          simp [h0, hmain] at this
          exact this
        cases hcl : s.closer with
        | unborn =>
          have := hi.closerBorn.mp hcl
          simp [hmain] at this
        | wait => exact ⟨.closer, _, by simp [step, hnp, stepCloser, hcl, hw]; rfl⟩
        | close => exact ⟨.closer, _, by simp [step, hnp, stepCloser, hcl, hc]; rfl⟩
        | exited =>
          have := hi.closedIff.mpr hcl
          simp [hc] at this
      · push_neg at hex
        obtain ⟨u, hu, hpc⟩ := hex
        obtain ⟨i, hiu⟩ := List.getElem?_of_mem hu
        have hpos : 0 < s.units.countP (fun u => u.pc.live) := by
          apply List.countP_pos_iff.mpr
          refine ⟨u, hu, ?_⟩
          cases hp : u.pc <;> simp [hp] at hpc ⊢
        have hw : s.wg ≠ 0 := by
          have := hi.wgCount
          omega
        cases hp : u.pc with
        | sort => exact ⟨.unit i, _, by simp [step, hnp, stepUnit, hiu, hp]; rfl⟩
        | send => exact ⟨.recv i, _, by simp [step, hnp, stepRecv, hiu, hp, hmain, hc]; rfl⟩
        | done => exact ⟨.unit i, _, by simp [step, hnp, stepUnit, hiu, hp, hw]; rfl⟩
        | exited => exact absurd hp hpc

theorem exists_complete_run {B : List Arr} (n : Nat) {s : Pipeline} (hi : Inv B s)
    (hn : s.fuel ≤ n) : ∃ sched t, run sched s = some t ∧ t.main = .done := by
  induction n generalizing s with
  | zero =>
    by_cases hm : s.main = .done
    · exact ⟨[], s, rfl, hm⟩
    · obtain ⟨l, t, hs⟩ := progress hi hm
      have := fuel_step l hi hs
      omega
  | succ n ih =>
    by_cases hm : s.main = .done
    · exact ⟨[], s, rfl, hm⟩
    · obtain ⟨l, t, hs⟩ := progress hi hm
      have hf := fuel_step l hi hs
      obtain ⟨sched, t2, hr, hd⟩ := ih (inv_step l hi hs) (by omega)
      exact ⟨l :: sched, t2, by simp [run, hs, hr], hd⟩

/-! ## Each unit is received once -/

theorem flags_set_same (units : List SortUnit) (i : Nat) (u x : SortUnit)
    (hu : units[i]? = some u) (hx : x.pc.sent = u.pc.sent) :
    ((units.set i x).map fun u => u.pc.sent) = units.map fun u => u.pc.sent := by
  obtain ⟨pre, post, hl, -, hset⟩ := getElem?_split _ _ _ hu
  rw [hset, hl]
  simp [hx]

theorem flags_step {s t : Pipeline} (l : Label) (h : step l s = some t) (j : Nat) :
    (t.sentFlags[j]? = some true ↔ s.sentFlags[j]? = some true ∨ j ∈ recvOrder [l]) ∧
      (j ∈ recvOrder [l] → s.sentFlags[j]? ≠ some true) := by
  unfold step at h
  split at h
  · simp at h
  · cases l with
    | main =>
      simp only at h
      unfold stepMain at h
      split at h
      · simp at h; subst h; simp [recvOrder, Pipeline.sentFlags]
      · simp at h; subst h
        simp only [recvOrder, Pipeline.sentFlags, List.map_append, List.getElem?_append]
        split
        · simp
        · next hlt =>
          have hn : (List.map (fun u => u.pc.sent) s.units)[j]? = none :=
            List.getElem?_eq_none (Nat.le_of_not_lt hlt)
          rw [hn]
          have hk : ∀ k : Nat, ([false] : List Bool)[k]? ≠ some true := by
            intro k
            cases k <;> simp
          simpa [ConcurrentSort] using hk _
      · simp at h; subst h; simp [recvOrder, Pipeline.sentFlags]
      · split at h
        · simp at h; subst h; simp [recvOrder, Pipeline.sentFlags]
        · simp at h
      · simp at h
    | unit i =>
      simp only at h
      unfold stepUnit at h
      split at h
      · simp at h
      · next u hu =>
        split at h
        · next hp =>
          simp at h; subst h
          have hf := flags_set_same s.units i u ⟨sortInts u.input, .send, u.sent⟩ hu (by simp [hp])
          simp only [recvOrder, Pipeline.sentFlags, hf]
          simp
        · split at h
          · simp at h; subst h; simp [recvOrder, Pipeline.sentFlags]
          · simp at h
        · next hp =>
          split at h
          · simp at h; subst h; simp [recvOrder, Pipeline.sentFlags]
          · simp at h; subst h
            have hf := flags_set_same s.units i u ⟨u.input, .exited, u.sent⟩ hu (by simp [hp])
            simp only [recvOrder, Pipeline.sentFlags, hf]
            simp
        · simp at h
    | recv i =>
      simp only at h
      unfold stepRecv at h
      split at h
      · next u hm hc hu =>
        split at h
        · next hp =>
          simp at h; subst h
          have hlt : i < s.units.length := by
            by_contra hge
            have := List.getElem?_eq_none (Nat.le_of_not_lt hge)
            simp [this] at hu
          simp only [recvOrder, Pipeline.sentFlags, List.map_set, List.getElem?_set,
            List.length_map, hlt, if_true, List.mem_singleton]
          constructor
          · by_cases hij : i = j
            · simp [hij]
            · simp [hij, Ne.symm hij]
          · intro hji
            subst hji
            simp [hu, hp]
        · simp at h
      · simp at h
    | closer =>
      simp only at h
      unfold stepCloser at h
      split at h
      · simp at h
      · split at h
        · simp at h; subst h; simp [recvOrder, Pipeline.sentFlags]
        · simp at h
      · split at h
        · simp at h; subst h; simp [recvOrder, Pipeline.sentFlags]
        · simp at h; subst h; simp [recvOrder, Pipeline.sentFlags]
      · simp at h

theorem recvOrder_single_nodup (l : Label) : (recvOrder [l]).Nodup := by
  cases l <;> simp [recvOrder]

theorem flags_run (sched : List Label) {s t : Pipeline} (h : run sched s = some t) :
    (∀ j, t.sentFlags[j]? = some true ↔ s.sentFlags[j]? = some true ∨ j ∈ recvOrder sched) ∧
      (recvOrder sched).Nodup ∧ (∀ j ∈ recvOrder sched, s.sentFlags[j]? ≠ some true) := by
  induction sched generalizing s with
  | nil => simp [run] at h; subst h; simp [recvOrder]
  | cons l ls ih =>
    simp only [run] at h
    cases hs : step l s with
    | none => simp [hs] at h
    | some s1 =>
      simp [hs] at h
      obtain ⟨h1, h2, h3⟩ := ih h
      rw [recvOrder_cons l ls]
      refine ⟨fun j => ?_, ?_, fun j hj => ?_⟩
      · rw [h1 j, (flags_step l hs j).1, List.mem_append, or_assoc]
      · refine List.Nodup.append (recvOrder_single_nodup l) h2 ?_
        intro j hj1 hj2
        exact h3 j hj2 (((flags_step l hs j).1).mpr (Or.inr hj1))
      · rcases List.mem_append.mp hj with hj | hj
        · exact (flags_step l hs j).2 hj
        · intro hf
          exact h3 j hj (((flags_step l hs j).1).mpr (Or.inl hf))

theorem recvOrder_perm {toSort : Slice Arr} (sched : List Label) {t : Pipeline}
    (h : run sched (initPipeline toSort) = some t) (hd : t.main = .done) :
    (recvOrder sched).Perm (List.range toSort.len) := by
  have hi := inv_run sched (inv_init toSort) h
  obtain ⟨h1, h2, -⟩ := flags_run sched h
  have hc := closed_pastWait hi (hi.doneClosed hd)
  have hex := pastWait_units_exited hi hc
  have hlen := pastWait_units_length hi hc
  apply (List.perm_ext_iff_of_nodup h2 (List.nodup_range _)).mpr
  intro j
  have hj := h1 j
  simp only [Pipeline.sentFlags, initPipeline, List.map_nil, List.getElem?_nil, false_or,
    reduceCtorEq] at hj
  rw [← hj, List.mem_range, List.getElem?_map]
  constructor
  · intro hs
    cases hu : t.units[j]? with
    | none => simp [hu] at hs
    | some u =>
      have hlt : j < t.units.length := by
        by_contra hge
        have := List.getElem?_eq_none (Nat.le_of_not_lt hge)
        simp [this] at hu
      simpa [Slice.len, hlen] using hlt
  · intro hlt
    have hlt2 : j < t.units.length := by simpa [Slice.len, hlen] using hlt
    rw [List.getElem?_eq_getElem hlt2]
    simp [hex _ (List.getElem_mem hlt2)]

/-! ## More consequences of the invariant -/

theorem complete_run_exists (B : Slice Arr) :
    ∃ sched s, run sched (initPipeline B) = some s ∧ s.main = .done :=
  exists_complete_run (initPipeline B).fuel (inv_init B) (Nat.le_refl _)

theorem publishes_sortInts (a : Arr) : Publishes a (sortInts a) := by
  intro B sched s i hr hd ha
  obtain ⟨u, hu, -, hs⟩ := done_unit_sent (inv_run sched (inv_init B) hr) hd i a ha
  exact ⟨u, hu, hs⟩

theorem publishes_unique {a v : Arr} (h : Publishes a v) : v = sortInts a := by
  obtain ⟨sched, s, hr, hd⟩ := complete_run_exists (some [a])
  obtain ⟨u, hu, hs⟩ := h (some [a]) sched s 0 hr hd rfl
  obtain ⟨u2, hu2, hs2⟩ := publishes_sortInts a (some [a]) sched s 0 hr hd rfl
  rw [hu] at hu2
  cases hu2
  rw [hs] at hs2
  simpa using hs2

theorem unit_sent {B : List Arr} {s : Pipeline} (hi : Inv B s) (i : Nat) (u : SortUnit)
    (hu : s.units[i]? = some u) :
    ∃ a, B[i]? = some a ∧ (u.sent = [] ∨ u.sent = [sortInts a]) := by
  obtain ⟨hlt, hr⟩ := unit_result hi i u hu
  refine ⟨B[i], List.getElem?_eq_getElem hlt, ?_⟩
  have hs := hi.sendsOk u (List.getElem?_mem hu)
  rw [List.getD_eq_getElem?_getD, List.getElem?_eq_getElem hlt] at hr
  simp only [Option.getD_some] at hr
  cases hp : u.pc with
  | sort => left; simpa [hp] using hs
  | send => left; simpa [hp] using hs
  | done =>
    right
    rw [SortUnit.result_of_ne u (by simp [hp])] at hr
    simpa [hp, hr] using hs
  | exited =>
    right
    rw [SortUnit.result_of_ne u (by simp [hp])] at hr
    simpa [hp, hr] using hs

theorem slice_eq_of_elems_ne_nil {α : Type} (s : Slice α) (l : List α) (h : s.elems = l)
    (hl : l ≠ []) : s = some l := by
  cases s with
  | none => simp [Slice.elems] at h; exact absurd h hl
  | some xs => simp [Slice.elems] at h; rw [h]

/-! ## The empty batch -/

theorem empty_batch_run {toSort : Slice Arr} (he : toSort.elems = []) (sched : List Label)
    {s : Pipeline} (hr : run sched (initPipeline toSort) = some s) :
    s.units = [] ∧ s.sortedArrays = none := by
  have hi := inv_run sched (inv_init toSort) hr
  have hb := hi.batch
  rw [he] at hb
  have hu : s.units = [] := by
    have := congrArg List.length hb
    simp only [List.length_append, List.length_map, List.length_nil] at this
    exact List.length_eq_zero.mp (by omega)
  refine ⟨hu, ?_⟩
  have hrec := hi.received
  rw [hu] at hrec
  have hnil : s.sortedArrays.elems = [] := by simpa using hrec
  rcases hi.nilUntilAppend with hn | hn
  · exact hn
  · exact absurd hnil hn

theorem empty_batch_schedule (toSort : Slice Arr) (he : toSort.elems = []) :
    run (scheduleFor 0 []) (initPipeline toSort)
      = some ⟨.done, [], 0, .exited, true, none, false⟩ := by
  simp [scheduleFor, initPipeline, he, run, step, stepMain, stepCloser]

/-! ## Decoding -/

theorem decodeItems_none_of_mem {β : Type} (f : JSON → Option β) (xs : List JSON) (x : JSON)
    (hx : x ∈ xs) (hf : f x = none) : decodeItems f xs = none := by
  induction xs with
  | nil => simp at hx
  | cons y ys ih =>
    rcases List.mem_cons.mp hx with rfl | hx
    · simp [decodeItems, hf]
    · simp [decodeItems, ih hx]

theorem decodeArr_bad_item (items : List JSON) (item : JSON) (hi : item ∈ items)
    (hd : decodeInt item = none) : decodeArr (.arr items) = none := by
  simp [decodeArr, decodeItems_none_of_mem decodeInt items item hi hd]

theorem decodeBatch_bad_row (rows : List JSON) (row : JSON) (hr : row ∈ rows)
    (hd : decodeArr row = none) : decodeBatch (.arr rows) = none := by
  simp [decodeBatch, decodeItems_none_of_mem decodeArr rows row hr hd]

theorem decodeMembers_failed (members : List (String × JSON)) (cur : Option (Slice Arr)) :
    decodeMembers members cur true = some (.error .typeError) := by
  induction members generalizing cur with
  | nil => simp [decodeMembers]
  | cons m rest ih =>
    obtain ⟨name, v⟩ := m
    unfold decodeMembers
    split
    · split <;> exact ih _
    · exact ih _

theorem decodeMembers_bad_member (members : List (String × JSON)) (cur : Option (Slice Arr))
    (failed : Bool) (name : String) (v : JSON) (hm : (name, v) ∈ members)
    (hn : matchesField name = true) (hv : decodeBatch v = none) :
    decodeMembers members cur failed = some (.error .typeError) := by
  induction members generalizing cur failed with
  | nil => simp at hm
  | cons m rest ih =>
    obtain ⟨name2, v2⟩ := m
    rcases List.mem_cons.mp hm with heq | hrest
    · cases heq
      unfold decodeMembers
      rw [if_pos hn]
      split
      · exact decodeMembers_failed _ _
      · next h => rw [hv] at h; cases h
      · next h => rw [hv] at h; cases h
    · clear hm
      unfold decodeMembers
      split
      · split <;> exact ih _ _ hrest
      · exact ih _ _ hrest

theorem decodeMembers_no_match (members : List (String × JSON)) (cur : Option (Slice Arr))
    (failed : Bool) (h : ∀ m ∈ members, matchesField m.1 = false) :
    decodeMembers members cur failed = decodeMembers [] cur failed := by
  induction members with
  | nil => rfl
  | cons m rest ih =>
    obtain ⟨name, v⟩ := m
    have hn : matchesField name = false := h (name, v) (by simp)
    have hstep : decodeMembers ((name, v) :: rest) cur failed = decodeMembers rest cur failed := by
      conv_lhs => unfold decodeMembers
      simp [hn]
    rw [hstep]
    exact ih (fun m hm => h m (by simp [hm]))

/-! ## The handlers on a rejected payload and on an empty batch -/

theorem handlers_reject (body : Body) (e : DecodeError) (hd : Decode body = some (.error e))
    (sched : List Label) (timeNS : Int) :
    ProcessSingleHandler body timeNS = some ⟨.badRequest "Invalid JSON", 0⟩ ∧
    ProcessConcurrentHandler body sched timeNS = some ⟨.badRequest "Invalid JSON", 0⟩ := by
  simp [ProcessSingleHandler, ProcessConcurrentHandler, hd]

theorem single_handler_empty (body : Body) (input : Input) (hd : Decode body = some (.ok input))
    (he : input.ToSort.elems = []) (timeNS : Int) :
    ProcessSingleHandler body timeNS = some ⟨.ok ⟨none, timeNS⟩, 0⟩ := by
  simp [ProcessSingleHandler, hd, sequentialLoop, he, Slice.len]

theorem concurrent_handler_empty (body : Body) (input : Input)
    (hd : Decode body = some (.ok input)) (he : input.ToSort.elems = []) (timeNS : Int) :
    ProcessConcurrentHandler body (scheduleFor 0 []) timeNS = some ⟨.ok ⟨none, timeNS⟩, 0⟩ ∧
    ∀ sched out, ProcessConcurrentHandler body sched timeNS = some out →
      out = ⟨.ok ⟨none, timeNS⟩, 0⟩ := by
  constructor
  · simp [ProcessConcurrentHandler, hd, empty_batch_schedule input.ToSort he]
  · intro sched out h
    simp only [ProcessConcurrentHandler, hd] at h
    cases hr : run sched (initPipeline input.ToSort) with
    | none => simp [hr] at h
    | some s =>
      obtain ⟨hu, hs⟩ := empty_batch_run he sched hr
      simp only [hr] at h
      split at h
      · simp [hu, hs] at h
        exact h.symm
      · simp at h

theorem decode_no_match (members : List (String × JSON))
    (h : ∀ m ∈ members, matchesField m.1 = false) :
    Decode (.value (.obj members)) = some (.ok ⟨none⟩) := by
  simp only [Decode]
  rw [decodeMembers_no_match members _ _ h]
  rfl

/-! ## The claims -/

/-- C1: for every batch `B`, the loop of `ProcessSingleHandler` returns as many arrays
as `B` has, and for every index `i` the `i`-th output array is sorted ascending and is
a permutation of the `i`-th input array; the batch `[[5,4],[2],[]]` gives
`[[4,5],[2],[]]` in that order, also through the handler. -/
theorem sequential_path_sorts_each_array (B : Slice Arr) :
    (sequentialLoop B).len = B.len ∧
    (∀ (i : Nat) (a : Arr), B.elems[i]? = some a →
      ∃ b : Arr, (sequentialLoop B).elems[i]? = some b ∧ b = SequentialSort a ∧
        b.elems.Sorted (· ≤ ·) ∧ b.elems.Perm a.elems) ∧
    sequentialLoop (some [some [5, 4], some [2], some []])
      = some [some [4, 5], some [2], some []] ∧
    ∀ timeNS, ProcessSingleHandler
        (.value (.obj [("to_sort", .arr [.arr [.int 5, .int 4], .arr [.int 2], .arr []])])) timeNS
      = some ⟨.ok ⟨some [some [4, 5], some [2], some []], timeNS⟩, 3⟩ := by
  refine ⟨?_, ?_, by decide, fun timeNS => ?_⟩
  · simp [Slice.len, sequentialLoop_elems]
  · intro i a ha
    refine ⟨SequentialSort a, ?_, rfl, sortInts_sorted a, sortInts_perm a⟩
    simp [sequentialLoop_elems, List.getElem?_map, ha]
  · have hd : Decode (.value (.obj [("to_sort",
        .arr [.arr [.int 5, .int 4], .arr [.int 2], .arr []])]))
        = some (.ok ⟨some [some [5, 4], some [2], some []]⟩) := by rfl
    simp only [ProcessSingleHandler, hd]
    have hl : sequentialLoop (some [some [5, 4], some [2], some []])
        = some [some [4, 5], some [2], some []] := by decide
    rw [hl]
    rfl

theorem sequential_path_sorts_each_array_witness :
    (Slice.elems (some [some [5, 4], some [2], some []] : Slice Arr))[0]? = some (some [5, 4]) ∧
    ∃ b : Arr, (sequentialLoop (some [some [5, 4], some [2], some []])).elems[0]? = some b ∧
      b = SequentialSort (some [5, 4]) ∧ b.elems.Sorted (· ≤ ·) ∧
      b.elems.Perm [5, 4] :=
  ⟨rfl, (sequential_path_sorts_each_array (some [some [5, 4], some [2], some []])).2.1
    0 (some [5, 4]) rfl⟩

/-- C2: for every batch `B` the concurrent path returns under every schedule (a
complete execution exists, no execution is longer than `5 * len(B) + 5` steps, and a
state where the drain loop has not ended always has a next step), and whatever the
schedule the result has exactly `len(B)` arrays, each sorted, whose multiset is the
multiset of the arrays of `B` each sorted: none dropped, none duplicated. -/
theorem concurrent_path_returns_sorted_multiset (B : Slice Arr) :
    (∃ sched s, run sched (initPipeline B) = some s ∧ s.main = .done) ∧
    ∀ sched s, run sched (initPipeline B) = some s →
      sched.length ≤ 5 * B.len + 5 ∧
      (s.main ≠ .done → ∃ l t, step l s = some t) ∧
      (s.main = .done →
        s.sortedArrays.len = B.len ∧
        (s.sortedArrays.elems : Multiset Arr) = ((B.elems.map sortInts : List Arr) : Multiset Arr) ∧
        ∀ b ∈ s.sortedArrays.elems, b.elems.Sorted (· ≤ ·)) := by
  refine ⟨complete_run_exists B, fun sched s hr => ?_⟩
  have hi := inv_run sched (inv_init B) hr
  refine ⟨?_, progress hi, fun hd => ?_⟩
  · have := fuel_run sched (inv_init B) hr
    rw [fuel_init] at this
    omega
  · have hp := done_received hi hd
    refine ⟨?_, Quotient.sound hp, fun b hb => ?_⟩
    · simpa [Slice.len] using hp.length_eq
    · obtain ⟨a, -, rfl⟩ := List.mem_map.mp (hp.mem_iff.mp hb)
      exact sortInts_sorted a

theorem concurrent_path_returns_sorted_multiset_witness :
    run (scheduleFor 3 [2, 0, 1]) (initPipeline (some [some [5, 4], some [2], some []]))
      = some ⟨.done, [⟨some [4, 5], .exited, [some [4, 5]]⟩, ⟨some [2], .exited, [some [2]]⟩,
          ⟨some [], .exited, [some []]⟩], 0, .exited, true,
          some [some [], some [4, 5], some [2]], false⟩ ∧
    (scheduleFor 3 [2, 0, 1]).length ≤ 5 * 3 + 5 ∧
    Slice.len (some [some [], some [4, 5], some [2]] : Slice Arr) = 3 ∧
    (([some [], some [4, 5], some [2]] : List Arr) : Multiset Arr)
      = (([some [5, 4], some [2], some []].map sortInts : List Arr) : Multiset Arr) :=
  have hr : run (scheduleFor 3 [2, 0, 1]) (initPipeline (some [some [5, 4], some [2], some []]))
      = some ⟨.done, [⟨some [4, 5], .exited, [some [4, 5]]⟩, ⟨some [2], .exited, [some [2]]⟩,
          ⟨some [], .exited, [some []]⟩], 0, .exited, true,
          some [some [], some [4, 5], some [2]], false⟩ := by decide
  have h := (concurrent_path_returns_sorted_multiset (some [some [5, 4], some [2], some []])).2
    (scheduleFor 3 [2, 0, 1]) _ hr
  ⟨hr, h.1, (h.2.2 rfl).1, (h.2.2 rfl).2.1⟩

/-- C5: both sorters are idempotent.  For every array `a` already sorted ascending,
`SequentialSort a` is `a` and the array that the unit `ConcurrentSort` publishes on
the channel for `a` is `a`; for every array, sorting the result of either sorter
again gives that result. -/
theorem sorters_idempotent (a : Arr) :
    (a.elems.Sorted (· ≤ ·) → SequentialSort a = a ∧ Publishes a a) ∧
    SequentialSort (SequentialSort a) = SequentialSort a ∧
    (∀ v, Publishes a v → Publishes v v) := by
  refine ⟨fun h => ⟨sortInts_of_sorted a h, ?_⟩, sortInts_idem a, fun v hv => ?_⟩
  · have hp := publishes_sortInts a
    rwa [sortInts_of_sorted a h] at hp
  · have hv2 := publishes_unique hv
    have hp := publishes_sortInts v
    rw [hv2, sortInts_idem] at hp
    rwa [hv2]

theorem sorters_idempotent_witness :
    List.Sorted (· ≤ ·) (Slice.elems (some [1, 2, 3] : Arr)) ∧
    SequentialSort (some [1, 2, 3]) = some [1, 2, 3] ∧ Publishes (some [1, 2, 3]) (some [1, 2, 3]) ∧
    (run (scheduleFor 1 [0]) (initPipeline (some [some [1, 2, 3]]))).map (fun s => s.units)
      = some [⟨some [1, 2, 3], .exited, [some [1, 2, 3]]⟩] :=
  have hs : List.Sorted (· ≤ ·) (Slice.elems (some [1, 2, 3] : Arr)) := by
    simp [Slice.elems]
  ⟨hs, ((sorters_idempotent (some [1, 2, 3])).1 hs).1, ((sorters_idempotent (some [1, 2, 3])).1 hs).2,
    by decide⟩

/-- C6: for every batch that consists of a single array `a`, the sequential and the
concurrent operation return exactly the same result sequence, the one array `a`
sorted ascending, whatever the schedule (and a complete execution exists); so on a
payload that decodes to such a batch whatever `ProcessConcurrentHandler` answers,
`ProcessSingleHandler` answers too.  `[[3,1,2]]` gives `[[1,2,3]]` from both. -/
theorem single_array_same_result (a : Arr) :
    sequentialLoop (some [a]) = some [sortInts a] ∧
    (sortInts a).elems.Sorted (· ≤ ·) ∧ (sortInts a).elems.Perm a.elems ∧
    (∃ sched s, run sched (initPipeline (some [a])) = some s ∧ s.main = .done) ∧
    (∀ sched s, run sched (initPipeline (some [a])) = some s → s.main = .done →
      s.sortedArrays = sequentialLoop (some [a])) ∧
    (∀ body sched timeNS out, Decode body = some (.ok ⟨some [a]⟩) →
      ProcessConcurrentHandler body sched timeNS = some out →
        ProcessSingleHandler body timeNS = some out ∧
        out = ⟨.ok ⟨some [sortInts a], timeNS⟩, 1⟩) ∧
    sequentialLoop (some [some [3, 1, 2]]) = some [some [1, 2, 3]] ∧
    (run (scheduleFor 1 [0]) (initPipeline (some [some [3, 1, 2]]))).map (fun s => s.sortedArrays)
      = some (some [some [1, 2, 3]]) := by
  have hseq : sequentialLoop (some [a]) = some [sortInts a] := rfl
  have hrun : ∀ sched s, run sched (initPipeline (some [a])) = some s → s.main = .done →
      s.sortedArrays = sequentialLoop (some [a]) := by
    intro sched s hr hd
    have hp := done_received (inv_run sched (inv_init (some [a])) hr) hd
    have he : s.sortedArrays.elems = [sortInts a] := by
      simpa [Slice.elems] using hp
    rw [hseq]
    exact slice_eq_of_elems_ne_nil _ _ he (by simp)
  refine ⟨hseq, sortInts_sorted a, sortInts_perm a, complete_run_exists _, hrun, ?_,
    by decide, by decide⟩
  intro body sched timeNS out hdec h
  simp only [ProcessConcurrentHandler, hdec] at h
  cases hr : run sched (initPipeline (some [a])) with
  | none => simp [hr] at h
  | some s =>
    simp only [hr] at h
    split at h
    · next hd =>
      have hi := inv_run sched (inv_init (some [a])) hr
      have hlen := pastWait_units_length hi (closed_pastWait hi (hi.doneClosed hd))
      have hs := hrun sched s hr hd
      simp only [Option.some.injEq] at h
      subst h
      simp [ProcessSingleHandler, hdec, hs, hseq, hlen, Slice.len, Slice.elems]
    · simp at h

theorem single_array_same_result_witness :
    run (scheduleFor 1 [0]) (initPipeline (some [some [3, 1, 2]]))
      = some ⟨.done, [⟨some [1, 2, 3], .exited, [some [1, 2, 3]]⟩], 0, .exited, true,
          some [some [1, 2, 3]], false⟩ ∧
    (some [some [1, 2, 3]] : Slice Arr) = sequentialLoop (some [some [3, 1, 2]]) ∧
    Decode (.value (.obj [("to_sort", .arr [.arr [.int 3, .int 1, .int 2]])]))
      = some (.ok ⟨some [some [3, 1, 2]]⟩) ∧
    ProcessConcurrentHandler (.value (.obj [("to_sort", .arr [.arr [.int 3, .int 1, .int 2]])]))
        (scheduleFor 1 [0]) 7 = some ⟨.ok ⟨some [some [1, 2, 3]], 7⟩, 1⟩ ∧
    ProcessSingleHandler (.value (.obj [("to_sort", .arr [.arr [.int 3, .int 1, .int 2]])])) 7
      = some ⟨.ok ⟨some [some [1, 2, 3]], 7⟩, 1⟩ :=
  have hr : run (scheduleFor 1 [0]) (initPipeline (some [some [3, 1, 2]]))
      = some ⟨.done, [⟨some [1, 2, 3], .exited, [some [1, 2, 3]]⟩], 0, .exited, true,
          some [some [1, 2, 3]], false⟩ := by decide
  have hc : ProcessConcurrentHandler
      (.value (.obj [("to_sort", .arr [.arr [.int 3, .int 1, .int 2]])])) (scheduleFor 1 [0]) 7
      = some ⟨.ok ⟨some [some [1, 2, 3]], 7⟩, 1⟩ := by decide
  ⟨hr, (single_array_same_result (some [3, 1, 2])).2.2.2.2.1 (scheduleFor 1 [0]) _ hr rfl,
    rfl, hc,
    ((single_array_same_result (some [3, 1, 2])).2.2.2.2.2.1
      (.value (.obj [("to_sort", .arr [.arr [.int 3, .int 1, .int 2]])]))
      (scheduleFor 1 [0]) 7 _ rfl hc).1⟩

/-- C10: each concurrent unit sorts like the sequential sorter.  In every state of
every execution, the unit started on the `i`-th array `a` of the batch has sent
nothing yet or exactly `SequentialSort a`, and once the drain loop has ended it has
sent exactly that; so for every batch and every schedule the concurrent result is a
permutation of the sequential result. -/
theorem concurrent_unit_sorts_like_sequential (B : Slice Arr) (sched : List Label)
    (s : Pipeline) (hr : run sched (initPipeline B) = some s) :
    (∀ (i : Nat) (u : SortUnit), s.units[i]? = some u →
      ∃ a : Arr, B.elems[i]? = some a ∧ (u.sent = [] ∨ u.sent = [SequentialSort a])) ∧
    (s.main = .done →
      (∀ (i : Nat) (a : Arr), B.elems[i]? = some a →
        ∃ u : SortUnit, s.units[i]? = some u ∧ u.sent = [SequentialSort a]) ∧
      s.sortedArrays.elems.Perm (sequentialLoop B).elems) := by
  have hi := inv_run sched (inv_init B) hr
  refine ⟨fun i u hu => unit_sent hi i u hu, fun hd => ⟨fun i a ha => ?_, ?_⟩⟩
  · obtain ⟨u, hu, -, hs⟩ := done_unit_sent hi hd i a ha
    exact ⟨u, hu, hs⟩
  · rw [sequentialLoop_elems]
    exact done_received hi hd

theorem concurrent_unit_sorts_like_sequential_witness :
    run (scheduleFor 2 [1, 0]) (initPipeline (some [some [3, 1, 2], some [9, 8]]))
      = some ⟨.done, [⟨some [1, 2, 3], .exited, [some [1, 2, 3]]⟩,
          ⟨some [8, 9], .exited, [some [8, 9]]⟩], 0, .exited, true,
          some [some [8, 9], some [1, 2, 3]], false⟩ ∧
    List.Perm [some [8, 9], some [1, 2, 3]]
      (Slice.elems (sequentialLoop (some [some [3, 1, 2], some [9, 8]]))) :=
  have hr : run (scheduleFor 2 [1, 0]) (initPipeline (some [some [3, 1, 2], some [9, 8]]))
      = some ⟨.done, [⟨some [1, 2, 3], .exited, [some [1, 2, 3]]⟩,
          ⟨some [8, 9], .exited, [some [8, 9]]⟩], 0, .exited, true,
          some [some [8, 9], some [1, 2, 3]], false⟩ := by decide
  ⟨hr, ((concurrent_unit_sorts_like_sequential _ (scheduleFor 2 [1, 0]) _ hr).2 rfl).2⟩

/-- C7: on the concurrent path the output order is the order of reception.  For every
batch `B` and every execution, the output lists, for the units in the order their
sends were received, the sorted array of that unit; each unit is received at most
once, and in a complete execution the receive order is a permutation of the indices
of `B`.  For the batch `[[2],[1]]` the execution that receives unit 1 first outputs
`[[1],[2]]`, which is not the input order `[[2],[1]]`. -/
theorem concurrent_output_in_receive_order :
    (∀ (B : Slice Arr) (sched : List Label) (s : Pipeline),
      run sched (initPipeline B) = some s →
        s.sortedArrays.elems = (recvOrder sched).map (fun i => sortInts (B.elems.getD i none)) ∧
        (recvOrder sched).Nodup ∧ (∀ i ∈ recvOrder sched, i < B.len) ∧
        (s.main = .done → (recvOrder sched).Perm (List.range B.len))) ∧
    (run (scheduleFor 2 [1, 0]) (initPipeline (some [some [2], some [1]]))).map
        (fun s => (s.main, s.sortedArrays)) = some (.done, some [some [1], some [2]]) ∧
    sequentialLoop (some [some [2], some [1]]) = some [some [2], some [1]] := by
  refine ⟨fun B sched s hr => ?_, by decide, by decide⟩
  have hi := inv_run sched (inv_init B) hr
  obtain ⟨h1, h2, -⟩ := flags_run sched hr
  refine ⟨?_, h2, fun i hmem => ?_, fun hd => recvOrder_perm sched hr hd⟩
  · have := sortedArrays_run sched (inv_init B) hr
    simpa [initPipeline, Slice.elems] using this
  · have hf := (h1 i).mpr (Or.inr hmem)
    have hlt : i < s.units.length := by
      by_contra hge
      have hn : s.sentFlags[i]? = none :=
        List.getElem?_eq_none (by simpa [Pipeline.sentFlags] using Nat.le_of_not_lt hge)
      rw [hn] at hf
      cases hf
    have hb := congrArg List.length hi.batch
    simp only [List.length_append, List.length_map] at hb
    simp only [Slice.len]
    omega

theorem concurrent_output_in_receive_order_witness :
    run (scheduleFor 2 [1, 0]) (initPipeline (some [some [2], some [1]]))
      = some ⟨.done, [⟨some [2], .exited, [some [2]]⟩, ⟨some [1], .exited, [some [1]]⟩], 0,
          .exited, true, some [some [1], some [2]], false⟩ ∧
    recvOrder (scheduleFor 2 [1, 0]) = [1, 0] ∧
    Slice.elems (some [some [1], some [2]] : Slice Arr)
      = (recvOrder (scheduleFor 2 [1, 0])).map
          (fun i => sortInts (List.getD [some [2], some [1]] i none)) :=
  have hr : run (scheduleFor 2 [1, 0]) (initPipeline (some [some [2], some [1]]))
      = some ⟨.done, [⟨some [2], .exited, [some [2]]⟩, ⟨some [1], .exited, [some [1]]⟩], 0,
          .exited, true, some [some [1], some [2]], false⟩ := by decide
  ⟨hr, by decide, (concurrent_output_in_receive_order.1 _ (scheduleFor 2 [1, 0]) _ hr).1⟩

/-- C8: in every reachable state of the concurrent pipeline for a batch of `N` arrays,
no goroutine has panicked; each unit has performed at most one channel send, none
before it reaches its send and exactly one once it is at or past its `wg.Done()`;
once `wg.Wait()` has returned the counter is zero and all `N` units have been started
and have returned; the channel is closed only by the closer after that, and then all
`N` sends have been received; and when the drain loop has ended the result has `N`
arrays and every unit has sent exactly once. -/
theorem close_only_after_all_sends (B : Slice Arr) (s : Pipeline)
    (h : Reachable (initPipeline B) s) :
    s.panicked = false ∧
    (∀ u ∈ s.units, u.sent.length ≤ 1 ∧
      (u.pc = .sort ∨ u.pc = .send → u.sent.length = 0) ∧
      (u.pc = .done ∨ u.pc = .exited → u.sent.length = 1)) ∧
    (s.closer = .close ∨ s.closer = .exited →
      s.wg = 0 ∧ s.units.length = B.len ∧ ∀ u ∈ s.units, u.pc = .exited) ∧
    (s.closed = true → s.closer = .exited ∧ s.sortedArrays.len = B.len) ∧
    (s.main = .done →
      s.closed = true ∧ s.sortedArrays.len = B.len ∧ s.units.length = B.len ∧
      ∀ u ∈ s.units, u.sent.length = 1) := by
  have hi := inv_reachable h
  have hsent : ∀ u ∈ s.units, u.sent.length ≤ 1 ∧
      (u.pc = .sort ∨ u.pc = .send → u.sent.length = 0) ∧
      (u.pc = .done ∨ u.pc = .exited → u.sent.length = 1) := by
    intro u hu
    have hs := hi.sendsOk u hu
    cases hp : u.pc <;> simp [hp] at hs <;> simp [hs]
  have hclosed : s.closed = true → s.closer = .exited ∧ s.sortedArrays.len = B.len := by
    intro hc
    refine ⟨hi.closedIff.mp hc, ?_⟩
    simpa [Slice.len] using (closed_received hi hc).length_eq
  refine ⟨hi.noPanic, hsent, fun hc => ?_, hclosed, fun hd => ?_⟩
  · exact ⟨hi.pastWait hc, pastWait_units_length hi hc, pastWait_units_exited hi hc⟩
  · have hc := hi.doneClosed hd
    have hpw := closed_pastWait hi hc
    refine ⟨hc, (hclosed hc).2, pastWait_units_length hi hpw, fun u hu => ?_⟩
    exact (hsent u hu).2.2 (Or.inr (pastWait_units_exited hi hpw u hu))

theorem close_only_after_all_sends_witness :
    Reachable (initPipeline (some [some [5, 4], some [2], some []]))
      ⟨.done, [⟨some [4, 5], .exited, [some [4, 5]]⟩, ⟨some [2], .exited, [some [2]]⟩,
          ⟨some [], .exited, [some []]⟩], 0, .exited, true,
          some [some [], some [4, 5], some [2]], false⟩ ∧
    Slice.len (some [some [], some [4, 5], some [2]] : Slice Arr) = 3 :=
  have hr : Reachable (initPipeline (some [some [5, 4], some [2], some []]))
      ⟨.done, [⟨some [4, 5], .exited, [some [4, 5]]⟩, ⟨some [2], .exited, [some [2]]⟩,
          ⟨some [], .exited, [some []]⟩], 0, .exited, true,
          some [some [], some [4, 5], some [2]], false⟩ :=
    ⟨scheduleFor 3 [2, 0, 1], by decide⟩
  ⟨hr, ((close_only_after_all_sends _ _ hr).2.2.2.2 rfl).2.1⟩

/-- C9: the barrier and channel mechanics cannot deadlock.  For every batch, in every
reachable state where the drain loop has not ended some goroutine (the handler in
its spawn loop or its drain loop, a unit, or the closer) can take a step;
every step uses up fuel, so no execution is longer than `5 * N + 5` steps and every
execution can be completed; and a state where the drain loop has ended has the
channel closed, the closer and all units returned, and no step left. -/
theorem pipeline_cannot_deadlock (B : Slice Arr) (sched : List Label) (s : Pipeline)
    (h : run sched (initPipeline B) = some s) :
    (s.main ≠ .done → ∃ l t, step l s = some t ∧ t.fuel < s.fuel) ∧
    sched.length + s.fuel ≤ 5 * B.len + 5 ∧
    (∃ rest t, run rest s = some t ∧ t.main = .done) ∧
    (s.main = .done →
      s.closed = true ∧ s.closer = .exited ∧ (∀ u ∈ s.units, u.pc = .exited) ∧
      ∀ l, step l s = none) := by
  have hi := inv_run sched (inv_init B) h
  refine ⟨fun hm => ?_, ?_, exists_complete_run s.fuel hi (Nat.le_refl _), fun hd => ?_⟩
  · obtain ⟨l, t, hs⟩ := progress hi hm
    exact ⟨l, t, hs, fuel_step l hi hs⟩
  · have := fuel_run sched (inv_init B) h
    rwa [fuel_init] at this
  · have hc := hi.doneClosed hd
    exact ⟨hc, hi.closedIff.mp hc, pastWait_units_exited hi (closed_pastWait hi hc),
      done_terminal hi hd⟩

theorem pipeline_cannot_deadlock_witness :
    run [Label.main, Label.main, Label.main, Label.unit 0]
        (initPipeline (some [some [3, 1, 2]]))
      = some ⟨.drain, [⟨some [1, 2, 3], .send, []⟩], 1, .wait, false, none, false⟩ ∧
    ∃ l t, step l ⟨.drain, [⟨some [1, 2, 3], .send, []⟩], 1, .wait, false, none, false⟩ = some t ∧
      t.fuel < Pipeline.fuel ⟨.drain, [⟨some [1, 2, 3], .send, []⟩], 1, .wait, false, none, false⟩ :=
  have hr : run [Label.main, Label.main, Label.main, Label.unit 0]
        (initPipeline (some [some [3, 1, 2]]))
      = some ⟨.drain, [⟨some [1, 2, 3], .send, []⟩], 1, .wait, false, none, false⟩ := by decide
  ⟨hr, (pipeline_cannot_deadlock _ _ _ hr).1 (by decide)⟩

/-- C3 (as stated, refuted): the payload `{"numbers": [[2,1]]}` uses a wrong field
name instead of `to_sort`, yet neither handler rejects it: both answer with status
200 and a nil `SortedArrays`.  The payload `{"to_sort": [[null]]}`, whose array
element is not a number, is not rejected either: the element decodes as 0. -/
theorem wrong_field_name_not_rejected :
    matchesField "numbers" = false ∧
    ProcessSingleHandler (.value (.obj [("numbers", .arr [.arr [.int 2, .int 1]])])) 0
      = some ⟨.ok ⟨none, 0⟩, 0⟩ ∧
    ProcessConcurrentHandler (.value (.obj [("numbers", .arr [.arr [.int 2, .int 1]])]))
        (scheduleFor 0 []) 0
      = some ⟨.ok ⟨none, 0⟩, 0⟩ ∧
    Response.status (.ok ⟨none, 0⟩) = 200 ∧
    ProcessSingleHandler (.value (.obj [("to_sort", .arr [.arr [.null]])])) 0
      = some ⟨.ok ⟨some [some [0]], 0⟩, 1⟩ := by
  decide

/-- C3 (amended): every payload on which decoding fails is rejected by both handlers
with status 400 before any sorter is invoked; decoding fails in particular when an
array under `to_sort` holds a string, a boolean, a number with a fraction or an
exponent, an array, an object, or an integer outside the range of `int`.  A payload
whose member names all differ from `to_sort` is not rejected: both handlers answer
200 with a nil `SortedArrays`, under every schedule, without invoking a sorter. -/
theorem undecodable_payload_rejected (sched : List Label) (timeNS : Int) :
    (∀ body e, Decode body = some (.error e) →
      ProcessSingleHandler body timeNS = some ⟨.badRequest "Invalid JSON", 0⟩ ∧
      ProcessConcurrentHandler body sched timeNS = some ⟨.badRequest "Invalid JSON", 0⟩ ∧
      Response.status (.badRequest "Invalid JSON") = 400) ∧
    (∀ members name rows items item,
      (name, JSON.arr rows) ∈ members → matchesField name = true →
      JSON.arr items ∈ rows → item ∈ items → decodeInt item = none →
        Decode (.value (.obj members)) = some (.error .typeError)) ∧
    ((∀ str, decodeInt (.str str) = none) ∧ (∀ b, decodeInt (.bool b) = none) ∧
      decodeInt .frac = none ∧ (∀ items, decodeInt (.arr items) = none) ∧
      (∀ members, decodeInt (.obj members) = none) ∧
      (∀ n, n < minInt ∨ maxInt < n → decodeInt (.int n) = none)) ∧
    (∀ members, (∀ m ∈ members, matchesField m.1 = false) →
      ProcessSingleHandler (.value (.obj members)) timeNS = some ⟨.ok ⟨none, timeNS⟩, 0⟩ ∧
      ProcessConcurrentHandler (.value (.obj members)) (scheduleFor 0 []) timeNS
        = some ⟨.ok ⟨none, timeNS⟩, 0⟩ ∧
      ∀ out, ProcessConcurrentHandler (.value (.obj members)) sched timeNS = some out →
        out = ⟨.ok ⟨none, timeNS⟩, 0⟩) := by
  refine ⟨fun body e hd => ?_, ?_, ⟨fun _ => rfl, fun _ => rfl, rfl, fun _ => rfl, fun _ => rfl, ?_⟩, ?_⟩
  · obtain ⟨h1, h2⟩ := handlers_reject body e hd sched timeNS
    exact ⟨h1, h2, rfl⟩
  · intro members name rows items item hm hn hrow hitem hd
    simp only [Decode]
    exact decodeMembers_bad_member members _ _ name (.arr rows) hm hn
      (decodeBatch_bad_row rows (.arr items) hrow (decodeArr_bad_item items item hitem hd))
  · intro n hn
    simp only [decodeInt]
    rw [if_neg]
    omega
  · intro members hm
    have hd := decode_no_match members hm
    obtain ⟨h2, h3⟩ := concurrent_handler_empty _ _ hd rfl timeNS
    exact ⟨single_handler_empty _ _ hd rfl timeNS, h2, fun out h => h3 sched out h⟩

theorem undecodable_payload_rejected_witness :
    Decode (.value (.obj [("to_sort", .arr [.arr [.int 5, .str "a"]])]))
      = some (.error .typeError) ∧
    ProcessSingleHandler (.value (.obj [("to_sort", .arr [.arr [.int 5, .str "a"]])])) 7
      = some ⟨.badRequest "Invalid JSON", 0⟩ ∧
    ProcessConcurrentHandler (.value (.obj [("to_sort", .arr [.arr [.int 5, .str "a"]])]))
        (scheduleFor 1 [0]) 7
      = some ⟨.badRequest "Invalid JSON", 0⟩ ∧
    Response.status (.badRequest "Invalid JSON") = 400 :=
  ⟨rfl, (undecodable_payload_rejected (scheduleFor 1 [0]) 7).1
    (.value (.obj [("to_sort", .arr [.arr [.int 5, .str "a"]])])) .typeError rfl⟩

/-- C4 (as stated, refuted): for the payload `{"to_sort": []}` both handlers build an
`Output` whose `SortedArrays` is the nil slice, and the response body carries
`"sorted_arrays": null`, which is not the encoding `[]` of an empty sequence. -/
theorem empty_batch_encoded_as_null :
    ProcessSingleHandler (.value (.obj [("to_sort", .arr [])])) 0 = some ⟨.ok ⟨none, 0⟩, 0⟩ ∧
    ProcessConcurrentHandler (.value (.obj [("to_sort", .arr [])])) (scheduleFor 0 []) 0
      = some ⟨.ok ⟨none, 0⟩, 0⟩ ∧
    Response.json (.ok ⟨none, 0⟩)
      = some (.obj [("sorted_arrays", .null), ("time_ns", .int 0)]) ∧
    encodeBatch (some []) = .arr [] ∧
    JSON.null ≠ JSON.arr [] := by
  refine ⟨by decide, by decide, rfl, rfl, ?_⟩
  intro h
  cases h

/-- C4 (amended): for the empty batch, whether `to_sort` is `[]` or absent, both
handlers build an `Output` whose `SortedArrays` is the nil slice: it has zero
elements, and the response encodes it as JSON null rather than as `[]`.  On the
concurrent path this holds under every schedule, a complete schedule exists, and in
every state of every execution zero units have been spawned. -/
theorem empty_batch_nil_result (timeNS : Int) :
    Decode (.value (.obj [("to_sort", .arr [])])) = some (.ok ⟨some []⟩) ∧
    (∀ body input, Decode body = some (.ok input) → input.ToSort.elems = [] →
      ProcessSingleHandler body timeNS = some ⟨.ok ⟨none, timeNS⟩, 0⟩ ∧
      ProcessConcurrentHandler body (scheduleFor 0 []) timeNS = some ⟨.ok ⟨none, timeNS⟩, 0⟩ ∧
      (∀ sched out, ProcessConcurrentHandler body sched timeNS = some out →
        out = ⟨.ok ⟨none, timeNS⟩, 0⟩) ∧
      ∀ sched s, run sched (initPipeline input.ToSort) = some s →
        s.units = [] ∧ s.sortedArrays = none) ∧
    Slice.len (none : Slice Arr) = 0 ∧
    Response.json (.ok ⟨none, timeNS⟩)
      = some (.obj [("sorted_arrays", .null), ("time_ns", .int timeNS)]) := by
  refine ⟨rfl, fun body input hd he => ?_, rfl, rfl⟩
  obtain ⟨h2, h3⟩ := concurrent_handler_empty body input hd he timeNS
  exact ⟨single_handler_empty body input hd he timeNS, h2, h3,
    fun sched s hr => empty_batch_run he sched hr⟩

theorem empty_batch_nil_result_witness :
    Decode (.value (.obj [("to_sort", .arr [])])) = some (.ok ⟨some []⟩) ∧
    Slice.elems (some [] : Slice Arr) = [] ∧
    ProcessSingleHandler (.value (.obj [("to_sort", .arr [])])) 7 = some ⟨.ok ⟨none, 7⟩, 0⟩ ∧
    ProcessConcurrentHandler (.value (.obj [("to_sort", .arr [])])) (scheduleFor 0 []) 7
      = some ⟨.ok ⟨none, 7⟩, 0⟩ :=
  have h := (empty_batch_nil_result 7).2.1 (.value (.obj [("to_sort", .arr [])])) ⟨some []⟩ rfl rfl
  ⟨rfl, rfl, h.1, h.2.1⟩

end MapUp
